import Mathlib

/-!
Shallow embedding of the AUDX audio-visualizer core (src/src-tauri/src/lib.rs).

The Rust code turns a stream of `f32` audio samples into 64 smoothed bar
intensities: chunks are accumulated into 2048-sample frames, each frame is
Hann-windowed, FFT'd, bucketized into 64 log-spaced frequency bands,
dB-normalized with a per-bar boost, and temporally smoothed.

Machine floats are modelled as real numbers; `usize` casts from
non-negative floats as `Int.toNat ∘ Int.floor / Int.ceil` (the Rust
`as usize` cast saturates negative values to 0, which `Int.toNat` matches).
-/

namespace AUDX

/-- Rust constant `FFT_SIZE = 2048` (lib.rs line 6). -/
def FFT_SIZE : ℕ := 2048

/-- Rust constant `NUM_BARS = 64` (lib.rs line 7). -/
def NUM_BARS : ℕ := 64

noncomputable section

/-- Rust constant `MIN_FREQ = 20.0` (lib.rs line 8). -/
def MIN_FREQ : ℝ := 20.0

/-- Rust constant `MAX_FREQ = 20000.0` (lib.rs line 9). -/
def MAX_FREQ : ℝ := 20000.0

/-- Rust constant `SMOOTHING_RISE = 0.5` (lib.rs line 10). -/
def SMOOTHING_RISE : ℝ := 0.5

/-- Rust constant `SMOOTHING_FALL = 0.85` (lib.rs line 11). -/
def SMOOTHING_FALL : ℝ := 0.85

/-- Rust constant `SENSITIVITY = 1.5` (lib.rs line 12). -/
def SENSITIVITY : ℝ := 1.5

/-- One logarithmic band edge: `MIN_FREQ * (MAX_FREQ / MIN_FREQ).powf(i / num_bars)`
(lib.rs lines 24-28, the expression shared by `start_freq` and `end_freq`). -/
def bandEdge (numBars i : ℕ) : ℝ :=
  MIN_FREQ * (MAX_FREQ / MIN_FREQ) ^ ((i : ℝ) / (numBars : ℝ))

/-- The Rust function `get_bar_frequencies` (lib.rs lines 21-33): for each bar `i`, the pair
`(start_freq, end_freq)` with ratios `i / num_bars` and `(i + 1) / num_bars`. -/
def get_bar_frequencies (numBars : ℕ) : List (ℝ × ℝ) :=
  (List.range numBars).map (fun i => (bandEdge numBars i, bandEdge numBars (i + 1)))

/-- Bin-range resolution for one bar (lib.rs lines 76-79): raw bins from
floor/ceil of `freq / resolution`, then clamped with
`low_bin.max(1).min(len - 1)` and `high_bin.max(low_bin + 1).min(len)`,
where `len` is the magnitude-spectrum length. -/
def resolveBins (len : ℕ) (lowFreq highFreq freqRes : ℝ) : ℕ × ℕ :=
  let lowBinRaw := (⌊lowFreq / freqRes⌋).toNat
  let highBinRaw := (⌈highFreq / freqRes⌉).toNat
  let lowBin := (lowBinRaw.max 1).min (len - 1)
  let highBin := (highBinRaw.max (lowBin + 1)).min len
  (lowBin, highBin)

/-- The smoother's one-step update (lib.rs lines 106-110):
fast attack at rate `SMOOTHING_RISE`, slow release at rate `1 - SMOOTHING_FALL`. -/
def smoothStep (prev target : ℝ) : ℝ :=
  if target > prev then prev + (target - prev) * SMOOTHING_RISE
  else prev + (target - prev) * (1 - SMOOTHING_FALL)

/-- The initial smoother state `prev_bars: vec![0.0; NUM_BARS]` at construction
(lib.rs line 50). -/
def initialBars : List ℝ := List.replicate NUM_BARS 0

/-- Repeated application of `smoothStep` for one bar with a constant
target: `smoothIter t x n` is the smoothed value after `n` frames whose raw
intensity for this bar is `t`, starting from state `x`. -/
def smoothIter (t x : ℝ) : ℕ → ℝ
  | 0 => x
  | n + 1 => smoothStep (smoothIter t x n) t

/-- The frequency-compensation boost (lib.rs line 96):
`1.0 + (bar_idx / NUM_BARS).powf(1.5) * 3.0`. -/
def freqBoost (barIdx : ℕ) : ℝ :=
  1 + ((barIdx : ℝ) / (NUM_BARS : ℝ)) ^ (1.5 : ℝ) * 3

/-- The normalizer applied to one bar's aggregate magnitude `m`
(lib.rs lines 90-98): dB conversion with a `1e-10` silence floor, clamp of
`(db + 60) / 60` to `[0, 1]`, then sensitivity and boost, capped at `1.5`. -/
def rawIntensity (m : ℝ) (barIdx : ℕ) : ℝ :=
  let db := 20 * Real.logb 10 (max m 1e-10)
  let normalized := min (max ((db + 60) / 60) 0) 1
  min (normalized * SENSITIVITY * freqBoost barIdx) 1.5

/-- One bar of the bucketize-and-normalize loop (lib.rs lines 75-99):
resolve the bin range, average the magnitudes over it, and normalize; the
bar keeps its initial `0.0` when the bin count is zero. -/
def barValue (magnitude : List ℝ) (freqRes : ℝ) (barIdx : ℕ) (freqs : ℝ × ℝ) : ℝ :=
  let bins := resolveBins magnitude.length freqs.1 freqs.2 freqRes
  let count := bins.2 - bins.1
  if 0 < count then
    let s := ((List.range' bins.1 count).map (fun b => magnitude.getD b 0)).sum
    rawIntensity (s / (count : ℝ)) barIdx
  else 0

/-- The unnormalized forward discrete Fourier transform computed by the
planned `rustfft` FFT (lib.rs lines 63-64): `X_k = Σ_j x_j · e^(-2πi·j·k/N)`. -/
def dft (v : List ℂ) : List ℂ :=
  (List.range v.length).map fun k =>
    ∑ j ∈ Finset.range v.length,
      v.getD j 0 * Complex.exp (-(2 * Complex.ofReal Real.pi * Complex.I * (k : ℂ) * (j : ℂ)) / (v.length : ℂ))

/-- The precomputed Hann window (lib.rs lines 43-47):
`0.5 * (1 - cos(2π·i / (FFT_SIZE - 1)))` for `i = 0 .. FFT_SIZE - 1`. -/
def hannWindow : List ℝ :=
  (List.range FFT_SIZE).map fun i =>
    0.5 * (1 - Real.cos (2 * Real.pi * (i : ℝ) / ((FFT_SIZE : ℝ) - 1)))

/-- The method `AudioProcessor::process` (lib.rs lines 56-114): window the frame,
transform, take the first `FFT_SIZE / 2` magnitudes scaled by `2 / FFT_SIZE`,
bucketize and normalize each bar, then fold the result into the smoother
state; the returned list is both the new state and the emitted bar vector. -/
def processFrame (sampleRate : ℝ) (prev samples : List ℝ) : List ℝ :=
  let windowed : List ℝ := List.zipWith (fun s h => s * h) samples hannWindow
  let spectrum := dft (windowed.map (fun x => Complex.ofReal x))
  let freqRes := sampleRate / (FFT_SIZE : ℝ)
  let magnitude := (spectrum.take (FFT_SIZE / 2)).map (fun c => Complex.abs c * 2 / (FFT_SIZE : ℝ))
  let bars := (get_bar_frequencies NUM_BARS).enum.map (fun p => barValue magnitude freqRes p.1 p.2)
  List.zipWith smoothStep prev bars

/-- The sequence of bar vectors emitted for a sequence of complete frames,
starting from the all-zero smoother state: one output per frame, each the
smoother state right after that frame (lib.rs line 113 and line 156). -/
def pipelineOutputs (sampleRate : ℝ) (frames : List (List ℝ)) : List (List ℝ) :=
  (frames.scanl (processFrame sampleRate) initialBars).drop 1

/-- The draining loop of `process_fn` (lib.rs lines 149-157): while the
buffer holds at least `n` samples, split off an `n`-sample prefix as a
frame; returns the emitted frames in order and the residual buffer. -/
def drainFrames (n : ℕ) (buf : List ℝ) : List (List ℝ) × List ℝ :=
  if h : 0 < n ∧ n ≤ buf.length then
    let rest := drainFrames n (buf.drop n)
    (buf.take n :: rest.1, rest.2)
  else ([], buf)
termination_by buf.length
decreasing_by simp only [List.length_drop]; omega

/-- One call of `process_fn` for one incoming chunk (lib.rs lines 145-158):
append the chunk to the residual buffer, then drain complete frames. The
state pairs the frames emitted so far with the residual buffer. -/
def ingest (n : ℕ) (st : List (List ℝ) × List ℝ) (chunk : List ℝ) : List (List ℝ) × List ℝ :=
  let d := drainFrames n (st.2 ++ chunk)
  (st.1 ++ d.1, d.2)

/-- Feeding a sequence of chunks through `process_fn`, starting from an
empty residual buffer. -/
def runChunks (n : ℕ) (chunks : List (List ℝ)) : List (List ℝ) × List ℝ :=
  chunks.foldl (ingest n) ([], [])

/-- Slicing a sample sequence into consecutive `n`-sized pieces: piece `k`
is `l[k*n .. k*n + n)`, for `k = 0 .. l.length / n - 1`. This is the
claim-side description of frame slicing, written independently of the
draining loop. -/
def slicesOf (n : ℕ) (l : List ℝ) : List (List ℝ) :=
  (List.range (l.length / n)).map (fun k => (l.drop (k * n)).take n)

end

/-- The observable lock/emission events of one `process_fn` call. -/
inductive LockEvent where
  | lockBuf
  | lockProc
  | lockPlan
  | emitBars
  | unlockPlan
  | unlockProc
  | unlockBuf
deriving DecidableEq

/-- The event trace of one `process_fn` call (lib.rs lines 145-158), from
Rust scoping: the `buf` guard (line 146) lives for the whole closure body;
inside each loop iteration the `proc` guard (line 152) and `plan` guard
(line 153) are taken, `window.emit` runs (line 156), and the guards drop in
reverse order at the end of the iteration. One iteration runs per complete
frame, i.e. `(residual + chunk length) / FFT_SIZE` times. -/
def chunkTrace (residualLen chunkLen : ℕ) : List LockEvent :=
  [LockEvent.lockBuf]
    ++ (List.replicate ((residualLen + chunkLen) / FFT_SIZE)
        [LockEvent.lockProc, LockEvent.lockPlan, LockEvent.emitBars,
         LockEvent.unlockPlan, LockEvent.unlockProc]).flatten
    ++ [LockEvent.unlockBuf]

/-- A mutex is held at position `i` of a trace when more of its lock events
than its unlock events precede `i`. -/
def heldAt (lock unlock : LockEvent) (t : List LockEvent) (i : ℕ) : Prop :=
  (t.take i).count unlock < (t.take i).count lock

instance (lock unlock : LockEvent) (t : List LockEvent) (i : ℕ) :
    Decidable (heldAt lock unlock t i) := by
  unfold heldAt; infer_instance

/-! ## Claim C1 — Bucketizer bin ranges -/

lemma resolveBins_bounds (len : ℕ) (lo hi res : ℝ) (hlen : 2 ≤ len) :
    1 ≤ (resolveBins len lo hi res).1 ∧
    (resolveBins len lo hi res).1 < (resolveBins len lo hi res).2 ∧
    (resolveBins len lo hi res).2 ≤ len := by
  have h : resolveBins len lo hi res =
      ((((⌊lo / res⌋).toNat.max 1).min (len - 1)),
       (((⌈hi / res⌉).toNat.max ((((⌊lo / res⌋).toNat.max 1).min (len - 1)) + 1)).min len)) := rfl
  rw [h]
  set a := (⌊lo / res⌋).toNat with ha
  set b := (⌈hi / res⌉).toNat with hb
  dsimp only
  simp only [Nat.min_def, Nat.max_def]
  split_ifs <;> omega

/-- C1: for every bar index and every positive sample rate, the bin range
the bucketizer resolves (floor/ceil of `freq / resolution`, then clamped
with `max(1).min(len-1)` resp. `max(low_bin+1).min(len)`, with
`len = FFT_SIZE / 2`) is non-empty and lies within `[1, len)`: the
averaging loop includes at least one bin and never touches the DC bin or
an out-of-range index. -/
theorem c1_bucketizer_bin_range (i : ℕ) (sampleRate : ℝ)
    (hi : i < NUM_BARS) (hr : 0 < sampleRate) :
    1 ≤ (resolveBins (FFT_SIZE / 2) ((get_bar_frequencies NUM_BARS).getD i (0, 0)).1
          ((get_bar_frequencies NUM_BARS).getD i (0, 0)).2 (sampleRate / (FFT_SIZE : ℝ))).1 ∧
    (resolveBins (FFT_SIZE / 2) ((get_bar_frequencies NUM_BARS).getD i (0, 0)).1
      ((get_bar_frequencies NUM_BARS).getD i (0, 0)).2 (sampleRate / (FFT_SIZE : ℝ))).1 <
      (resolveBins (FFT_SIZE / 2) ((get_bar_frequencies NUM_BARS).getD i (0, 0)).1
        ((get_bar_frequencies NUM_BARS).getD i (0, 0)).2 (sampleRate / (FFT_SIZE : ℝ))).2 ∧
    (resolveBins (FFT_SIZE / 2) ((get_bar_frequencies NUM_BARS).getD i (0, 0)).1
      ((get_bar_frequencies NUM_BARS).getD i (0, 0)).2 (sampleRate / (FFT_SIZE : ℝ))).2 ≤
      FFT_SIZE / 2 :=
  resolveBins_bounds _ _ _ _ (by norm_num [FFT_SIZE])

/-- Witness for C1 at bar 5 and sample rate 44100. -/
theorem c1_bucketizer_bin_range_witness :
    5 < NUM_BARS ∧ (0:ℝ) < 44100 ∧
    (1 ≤ (resolveBins (FFT_SIZE / 2) ((get_bar_frequencies NUM_BARS).getD 5 (0, 0)).1
          ((get_bar_frequencies NUM_BARS).getD 5 (0, 0)).2 ((44100:ℝ) / (FFT_SIZE : ℝ))).1 ∧
      (resolveBins (FFT_SIZE / 2) ((get_bar_frequencies NUM_BARS).getD 5 (0, 0)).1
        ((get_bar_frequencies NUM_BARS).getD 5 (0, 0)).2 ((44100:ℝ) / (FFT_SIZE : ℝ))).1 <
        (resolveBins (FFT_SIZE / 2) ((get_bar_frequencies NUM_BARS).getD 5 (0, 0)).1
          ((get_bar_frequencies NUM_BARS).getD 5 (0, 0)).2 ((44100:ℝ) / (FFT_SIZE : ℝ))).2 ∧
      (resolveBins (FFT_SIZE / 2) ((get_bar_frequencies NUM_BARS).getD 5 (0, 0)).1
        ((get_bar_frequencies NUM_BARS).getD 5 (0, 0)).2 ((44100:ℝ) / (FFT_SIZE : ℝ))).2 ≤
        FFT_SIZE / 2) :=
  ⟨by decide, by norm_num, c1_bucketizer_bin_range 5 44100 (by decide) (by norm_num)⟩

/-! ## Claim C4 — the frequency boost -/

/-- C4 counterexample: the boost at the highest bar (index 63) is not 4.0;
the formula `1 + (63/64)^1.5 * 3` gives about 3.93. -/
theorem c4_boost_counterexample : freqBoost 63 ≠ 4 := by
  have hlt : ((63:ℝ) / 64) ^ (1.5:ℝ) < 1 :=
    Real.rpow_lt_one (by norm_num) (by norm_num) (by norm_num)
  have h4 : freqBoost 63 < 4 := by
    unfold freqBoost NUM_BARS
    push_cast
    nlinarith [hlt]
  exact ne_of_lt h4

/-- C4 (amended): the boost is `1 + (i/B)^1.5 * 3`; it is exactly 1.0 at
bar 0, strictly increasing in the bar index, and at the highest bar
(index 63) lies strictly between 3.9 and 4.0 (about 3.93); the value 4.0
would be attained only at `i = B`, one past the last bar. -/
theorem c4_freqBoost_amended :
    freqBoost 0 = 1 ∧
    (∀ i j : ℕ, i < j → freqBoost i < freqBoost j) ∧
    3.9 < freqBoost 63 ∧ freqBoost 63 < 4 := by
  refine ⟨?_, ?_, ?_, ?_⟩
  · unfold freqBoost
    rw [Nat.cast_zero, zero_div, Real.zero_rpow (by norm_num)]
    ring
  · intro i j hij
    have hij' : (i : ℝ) < (j : ℝ) := by exact_mod_cast hij
    have hx : (0:ℝ) ≤ (i : ℝ) / (NUM_BARS : ℝ) := by positivity
    have hxy : (i : ℝ) / (NUM_BARS : ℝ) < (j : ℝ) / (NUM_BARS : ℝ) := by
      unfold NUM_BARS
      push_cast
      linarith
    have key := Real.rpow_lt_rpow hx hxy (by norm_num : (0:ℝ) < 1.5)
    unfold freqBoost
    linarith [key]
  · have key : ((63:ℝ) / 64) ^ (2:ℝ) ≤ ((63:ℝ) / 64) ^ (1.5:ℝ) :=
      Real.rpow_le_rpow_of_exponent_ge (by norm_num) (by norm_num) (by norm_num)
    have h2 : ((63:ℝ) / 64) ^ (2:ℝ) = 3969 / 4096 := by
      rw [Real.rpow_two]; norm_num
    unfold freqBoost NUM_BARS
    push_cast
    nlinarith [key, h2]
  · have hlt : ((63:ℝ) / 64) ^ (1.5:ℝ) < 1 :=
      Real.rpow_lt_one (by norm_num) (by norm_num) (by norm_num)
    unfold freqBoost NUM_BARS
    push_cast
    nlinarith [hlt]

/-- Witness for the amended C4: strict increase from bar 0 to bar 63. -/
theorem c4_freqBoost_amended_witness : freqBoost 0 < freqBoost 63 :=
  c4_freqBoost_amended.2.1 0 63 (by decide)

/-! ## Claim C2 — the stream accumulator -/

lemma drainFrames_of_lt (n : ℕ) (l : List ℝ) (h : l.length < n) :
    drainFrames n l = ([], l) := by
  rw [drainFrames, dif_neg (by omega : ¬(0 < n ∧ n ≤ l.length))]

lemma drainFrames_of_le (n : ℕ) (l : List ℝ) (h0 : 0 < n) (h : n ≤ l.length) :
    drainFrames n l =
      (l.take n :: (drainFrames n (l.drop n)).1, (drainFrames n (l.drop n)).2) := by
  rw [drainFrames, dif_pos ⟨h0, h⟩]

lemma slicesOf_of_lt (n : ℕ) (l : List ℝ) (h : l.length < n) : slicesOf n l = [] := by
  unfold slicesOf
  rw [Nat.div_eq_of_lt h]
  simp

lemma slicesOf_of_le (n : ℕ) (l : List ℝ) (h0 : 0 < n) (h : n ≤ l.length) :
    slicesOf n l = l.take n :: slicesOf n (l.drop n) := by
  unfold slicesOf
  have hdiv : l.length / n = (l.drop n).length / n + 1 := by
    rw [List.length_drop, Nat.div_eq_sub_div h0 h]
  rw [hdiv, List.range_succ_eq_map, List.map_cons, List.map_map]
  congr 1
  · simp
  · refine List.map_congr_left fun k _ => ?_
    simp only [Function.comp]
    rw [List.drop_drop]
    congr 2
    rw [Nat.succ_mul]
    exact Nat.add_comm _ _

lemma drainFrames_characterization (n : ℕ) (h0 : 0 < n) (l : List ℝ) :
    drainFrames n l = (slicesOf n l, l.drop (l.length / n * n)) := by
  have main : ∀ (k : ℕ) (l : List ℝ), l.length ≤ k →
      drainFrames n l = (slicesOf n l, l.drop (l.length / n * n)) := by
    intro k
    induction k with
    | zero =>
      intro l hl
      have hlt : l.length < n := by omega
      rw [drainFrames_of_lt n l hlt, slicesOf_of_lt n l hlt, Nat.div_eq_of_lt hlt]
      simp
    | succ k ih =>
      intro l hl
      rcases lt_or_le l.length n with hlt | hle
      · rw [drainFrames_of_lt n l hlt, slicesOf_of_lt n l hlt, Nat.div_eq_of_lt hlt]
        simp
      · rw [drainFrames_of_le n l h0 hle, slicesOf_of_le n l h0 hle,
          ih (l.drop n) (by rw [List.length_drop]; omega)]
        refine Prod.ext rfl ?_
        dsimp only
        rw [List.drop_drop]
        congr 1
        rw [List.length_drop, Nat.div_eq_sub_div h0 hle, Nat.succ_mul]
        omega
  exact main l.length l le_rfl

lemma drainFrames_residual_lt (n : ℕ) (h0 : 0 < n) (l : List ℝ) :
    (drainFrames n l).2.length < n := by
  rw [drainFrames_characterization n h0 l]
  dsimp only
  rw [List.length_drop]
  have hdm : l.length / n * n + l.length % n = l.length := by
    rw [mul_comm]
    exact Nat.div_add_mod l.length n
  have hmod : l.length % n < n := Nat.mod_lt l.length h0
  generalize hp : l.length / n * n = p at hdm
  generalize hr : l.length % n = r at hdm hmod
  omega

lemma drainFrames_append (n : ℕ) (h0 : 0 < n) (a b : List ℝ) :
    drainFrames n (a ++ b) =
      ((drainFrames n a).1 ++ (drainFrames n ((drainFrames n a).2 ++ b)).1,
       (drainFrames n ((drainFrames n a).2 ++ b)).2) := by
  have main : ∀ (k : ℕ) (a b : List ℝ), a.length ≤ k →
      drainFrames n (a ++ b) =
        ((drainFrames n a).1 ++ (drainFrames n ((drainFrames n a).2 ++ b)).1,
         (drainFrames n ((drainFrames n a).2 ++ b)).2) := by
    intro k
    induction k with
    | zero =>
      intro a b ha
      have hlt : a.length < n := by omega
      rw [drainFrames_of_lt n a hlt]
      simp
    | succ k ih =>
      intro a b ha
      rcases lt_or_le a.length n with hlt | hle
      · rw [drainFrames_of_lt n a hlt]
        simp
      · have h1 : n ≤ (a ++ b).length := by rw [List.length_append]; omega
        rw [drainFrames_of_le n (a ++ b) h0 h1,
          List.take_append_of_le_length hle, List.drop_append_of_le_length hle,
          ih (a.drop n) b (by rw [List.length_drop]; omega),
          drainFrames_of_le n a h0 hle]
        dsimp only
        rw [List.cons_append]
  exact main a.length a b le_rfl

lemma foldl_ingest_eq (n : ℕ) (h0 : 0 < n) :
    ∀ (chunks : List (List ℝ)) (fs : List (List ℝ)) (r : List ℝ), r.length < n →
      chunks.foldl (ingest n) (fs, r) =
        (fs ++ (drainFrames n (r ++ chunks.flatten)).1,
         (drainFrames n (r ++ chunks.flatten)).2) := by
  intro chunks
  induction chunks with
  | nil =>
    intro fs r hr
    simp only [List.foldl_nil, List.flatten_nil, List.append_nil]
    rw [drainFrames_of_lt n r hr]
    simp
  | cons c cs ih =>
    intro fs r hr
    rw [List.foldl_cons,
      show ingest n (fs, r) c =
        (fs ++ (drainFrames n (r ++ c)).1, (drainFrames n (r ++ c)).2) from rfl,
      ih _ _ (drainFrames_residual_lt n h0 (r ++ c)),
      List.flatten_cons,
      show r ++ (c ++ cs.flatten) = (r ++ c) ++ cs.flatten from
        (List.append_assoc r c cs.flatten).symm,
      drainFrames_append n h0 (r ++ c) cs.flatten]
    dsimp only
    rw [List.append_assoc]

lemma runChunks_eq (chunks : List (List ℝ)) :
    runChunks FFT_SIZE chunks =
      (slicesOf FFT_SIZE chunks.flatten,
       chunks.flatten.drop (chunks.flatten.length / FFT_SIZE * FFT_SIZE)) := by
  unfold runChunks
  rw [foldl_ingest_eq FFT_SIZE (by norm_num [FFT_SIZE]) chunks [] []
    (by norm_num [FFT_SIZE])]
  simp only [List.nil_append]
  rw [drainFrames_characterization FFT_SIZE (by norm_num [FFT_SIZE])]

/-- C2: for chunk sequences whose concatenation has length a multiple of
`FFT_SIZE`, the accumulation loop emits exactly the frames obtained by
slicing the concatenation into consecutive `FFT_SIZE`-sized pieces in
order, ends with an empty residual buffer, depends only on the
concatenation (not on the chunking), and after every ingestion call the
residual buffer is strictly shorter than `FFT_SIZE`. -/
theorem c2_stream_accumulator (chunks : List (List ℝ))
    (hmul : chunks.flatten.length % FFT_SIZE = 0) :
    (runChunks FFT_SIZE chunks).1 = slicesOf FFT_SIZE chunks.flatten ∧
    (runChunks FFT_SIZE chunks).2 = [] ∧
    (∀ chunks' : List (List ℝ), chunks'.flatten = chunks.flatten →
      (runChunks FFT_SIZE chunks').1 = (runChunks FFT_SIZE chunks).1) ∧
    (∀ k : ℕ, (runChunks FFT_SIZE (chunks.take k)).2.length < FFT_SIZE) := by
  refine ⟨?_, ?_, ?_, ?_⟩
  · rw [runChunks_eq]
  · rw [runChunks_eq]
    dsimp only
    rw [Nat.div_mul_cancel (Nat.dvd_of_mod_eq_zero hmul)]
    exact List.drop_length _
  · intro chunks' hflat
    rw [runChunks_eq, runChunks_eq, hflat]
  · intro k
    rw [runChunks_eq]
    dsimp only
    rw [List.length_drop]
    set m := (chunks.take k).flatten.length with hm
    have hdm : m / FFT_SIZE * FFT_SIZE + m % FFT_SIZE = m := by
      rw [mul_comm]
      exact Nat.div_add_mod m FFT_SIZE
    have hmod : m % FFT_SIZE < FFT_SIZE := Nat.mod_lt m (by norm_num [FFT_SIZE])
    generalize hp : m / FFT_SIZE * FFT_SIZE = p at hdm
    generalize hr : m % FFT_SIZE = r at hdm hmod
    omega

/-- Witness for C2 on two 1024-sample chunks of silence, whose
concatenation is exactly one 2048-sample frame. -/
theorem c2_stream_accumulator_witness :
    ([List.replicate 1024 (0:ℝ), List.replicate 1024 0].flatten.length % FFT_SIZE = 0) ∧
    ((runChunks FFT_SIZE [List.replicate 1024 (0:ℝ), List.replicate 1024 0]).1 =
        slicesOf FFT_SIZE [List.replicate 1024 (0:ℝ), List.replicate 1024 0].flatten ∧
     (runChunks FFT_SIZE [List.replicate 1024 (0:ℝ), List.replicate 1024 0]).2 = [] ∧
     (∀ chunks' : List (List ℝ),
        chunks'.flatten = [List.replicate 1024 (0:ℝ), List.replicate 1024 0].flatten →
        (runChunks FFT_SIZE chunks').1 =
          (runChunks FFT_SIZE [List.replicate 1024 (0:ℝ), List.replicate 1024 0]).1) ∧
     (∀ k : ℕ,
        (runChunks FFT_SIZE ([List.replicate 1024 (0:ℝ), List.replicate 1024 0].take k)).2.length <
          FFT_SIZE)) :=
  ⟨by simp only [List.flatten_cons, List.flatten_nil, List.append_nil,
      List.length_append, List.length_replicate, FFT_SIZE],
   c2_stream_accumulator _
     (by simp only [List.flatten_cons, List.flatten_nil, List.append_nil,
        List.length_append, List.length_replicate, FFT_SIZE])⟩

/-! ## Claim C3 — the normalizer's range -/

lemma freqBoost_ge_one (i : ℕ) : 1 ≤ freqBoost i := by
  unfold freqBoost
  have h : (0:ℝ) ≤ ((i : ℝ) / (NUM_BARS : ℝ)) ^ (1.5:ℝ) :=
    Real.rpow_nonneg (by positivity) _
  nlinarith

lemma rawIntensity_bounds (m : ℝ) (i : ℕ) :
    0 ≤ rawIntensity m i ∧ rawIntensity m i ≤ 1.5 := by
  have hb : (0:ℝ) ≤ freqBoost i := le_trans zero_le_one (freqBoost_ge_one i)
  constructor
  · show (0:ℝ) ≤
      min ((min (max ((20 * Real.logb 10 (max m 1e-10) + 60) / 60) 0) 1) *
        SENSITIVITY * freqBoost i) 1.5
    apply le_min _ (by norm_num)
    apply mul_nonneg (mul_nonneg _ (by norm_num [SENSITIVITY])) hb
    exact le_min (le_max_right _ 0) zero_le_one
  · exact min_le_right _ _

lemma rawIntensity_zero_bar_zero : rawIntensity 0 0 = 0 := by
  have hmax : max (0:ℝ) 1e-10 = 1e-10 := max_eq_right (by norm_num)
  have hval : (1e-10 : ℝ) = (10:ℝ) ^ ((-10:ℝ)) := by
    rw [Real.rpow_neg (by norm_num : (0:ℝ) ≤ 10)]
    rw [show ((10:ℝ) ^ (10:ℝ)) = ((10:ℝ) ^ (10:ℕ)) by
      rw [← Real.rpow_natCast (10:ℝ) 10]; norm_num]
    norm_num
  have hlogb : Real.logb 10 (1e-10 : ℝ) = -10 := by
    rw [hval]; exact Real.logb_rpow (by norm_num) (by norm_num)
  show min ((min (max ((20 * Real.logb 10 (max (0:ℝ) 1e-10) + 60) / 60) 0) 1) *
      SENSITIVITY * freqBoost 0) 1.5 = 0
  rw [hmax, hlogb]
  norm_num

/-- C3: the raw (pre-smoothing) intensity
`min(clamp((20*log10(max(m, 1e-10)) + 60) / 60, 0, 1) * sensitivity * boost(i), 1.5)`
lies in `[0, 1.5]` for every aggregate magnitude `m` and every bar, and the
aggregate `m = 0` at bar 0 yields raw intensity exactly 0 (the `1e-10`
floor gives dB value `-200`, which clamps to 0). -/
theorem c3_normalizer_range :
    (∀ (m : ℝ) (i : ℕ), i < NUM_BARS →
      0 ≤ rawIntensity m i ∧ rawIntensity m i ≤ 1.5) ∧
    rawIntensity 0 0 = 0 :=
  ⟨fun m i _ => rawIntensity_bounds m i, rawIntensity_zero_bar_zero⟩

/-- Witness for C3 at magnitude 2 and bar 7. -/
theorem c3_normalizer_range_witness :
    7 < NUM_BARS ∧ (0 ≤ rawIntensity 2 7 ∧ rawIntensity 2 7 ≤ 1.5) :=
  ⟨by decide, c3_normalizer_range.1 2 7 (by decide)⟩

/-! ## Claim C5 — the band map -/

lemma get_bar_frequencies_getD (n i : ℕ) (h : i < n) :
    (get_bar_frequencies n).getD i (0, 0) = (bandEdge n i, bandEdge n (i + 1)) := by
  unfold get_bar_frequencies
  rw [List.getD_eq_getElem?_getD, List.getElem?_map, List.getElem?_range h]
  rfl

lemma bandEdge_lt (n i j : ℕ) (hn : 0 < n) (hij : i < j) :
    bandEdge n i < bandEdge n j := by
  unfold bandEdge
  have hmin : (0:ℝ) < MIN_FREQ := by norm_num [MIN_FREQ]
  have hb : (1:ℝ) < MAX_FREQ / MIN_FREQ := by norm_num [MIN_FREQ, MAX_FREQ]
  have hn' : (0:ℝ) < (n : ℝ) := by exact_mod_cast hn
  have hexp : (i : ℝ) / (n : ℝ) < (j : ℝ) / (n : ℝ) := by
    apply (div_lt_div_iff_of_pos_right hn').mpr
    exact_mod_cast hij
  exact mul_lt_mul_of_pos_left ((Real.rpow_lt_rpow_left_iff hb).mpr hexp) hmin

/-- C5: the band map for `NUM_BARS = 64`, `MIN_FREQ = 20`, `MAX_FREQ = 20000`
has 64 ranges `(f_min * (f_max/f_min)^(i/B), f_min * (f_max/f_min)^((i+1)/B))`
that are monotonically increasing, contiguous (each range's high edge equals
the next range's low edge), with the first low edge equal to `MIN_FREQ` and
the last high edge equal to `MAX_FREQ` (exactly, in the real-number model). -/
theorem c5_band_map :
    (get_bar_frequencies NUM_BARS).length = NUM_BARS ∧
    (∀ i : ℕ, i < NUM_BARS →
      ((get_bar_frequencies NUM_BARS).getD i (0, 0)).1 <
        ((get_bar_frequencies NUM_BARS).getD i (0, 0)).2) ∧
    (∀ i : ℕ, i + 1 < NUM_BARS →
      ((get_bar_frequencies NUM_BARS).getD i (0, 0)).2 =
        ((get_bar_frequencies NUM_BARS).getD (i + 1) (0, 0)).1) ∧
    ((get_bar_frequencies NUM_BARS).getD 0 (0, 0)).1 = MIN_FREQ ∧
    ((get_bar_frequencies NUM_BARS).getD (NUM_BARS - 1) (0, 0)).2 = MAX_FREQ := by
  refine ⟨?_, ?_, ?_, ?_, ?_⟩
  · unfold get_bar_frequencies
    simp
  · intro i hi
    rw [get_bar_frequencies_getD NUM_BARS i hi]
    exact bandEdge_lt NUM_BARS i (i + 1) (by decide) (Nat.lt_succ_self i)
  · intro i hi
    rw [get_bar_frequencies_getD NUM_BARS i (by omega),
      get_bar_frequencies_getD NUM_BARS (i + 1) hi]
  · rw [get_bar_frequencies_getD NUM_BARS 0 (by decide)]
    show bandEdge NUM_BARS 0 = MIN_FREQ
    unfold bandEdge
    norm_num
  · rw [show NUM_BARS - 1 = 63 from rfl,
      get_bar_frequencies_getD NUM_BARS 63 (by decide)]
    show bandEdge NUM_BARS 64 = MAX_FREQ
    unfold bandEdge NUM_BARS
    rw [show ((64:ℕ) : ℝ) / ((64:ℕ) : ℝ) = 1 by norm_num, Real.rpow_one]
    norm_num [MIN_FREQ, MAX_FREQ]

/-- Witness for C5: contiguity between bars 0 and 1. -/
theorem c5_band_map_witness :
    ((get_bar_frequencies NUM_BARS).getD 0 (0, 0)).2 =
      ((get_bar_frequencies NUM_BARS).getD 1 (0, 0)).1 :=
  c5_band_map.2.2.1 0 (by decide)

/-! ## Claim C6 — the smoother's one-step update and initial state -/

/-- C6: the smoother's one-step update is
`prev + (target - prev) * 0.5` when `target > prev` and
`prev + (target - prev) * (1 - 0.85)` otherwise, and the per-bar state is
initialized to 64 zeros at construction. -/
theorem c6_smoother_step_and_init :
    (∀ prev target : ℝ,
        smoothStep prev target =
          if target > prev then prev + (target - prev) * 0.5
          else prev + (target - prev) * (1 - 0.85)) ∧
    initialBars = List.replicate 64 (0:ℝ) :=
  ⟨fun _ _ => rfl, rfl⟩

/-! ## Claim C7 — monotone convergence of the smoother -/

lemma smoothStep_le_of_le (p t : ℝ) (h : p ≤ t) :
    p ≤ smoothStep p t ∧ smoothStep p t ≤ t := by
  unfold smoothStep SMOOTHING_RISE SMOOTHING_FALL
  split_ifs with hc
  · constructor <;> linarith
  · constructor <;> linarith

lemma smoothStep_ge_of_ge (p t : ℝ) (h : t ≤ p) :
    t ≤ smoothStep p t ∧ smoothStep p t ≤ p := by
  unfold smoothStep SMOOTHING_RISE SMOOTHING_FALL
  split_ifs with hc
  · constructor <;> linarith
  · constructor <;> linarith

lemma smoothStep_dist (p t : ℝ) : |smoothStep p t - t| ≤ 17 / 20 * |p - t| := by
  unfold smoothStep SMOOTHING_RISE SMOOTHING_FALL
  split_ifs with hc
  · rw [abs_of_nonpos (by linarith), abs_of_nonpos (by linarith)]
    linarith
  · push_neg at hc
    rw [abs_of_nonneg (by linarith), abs_of_nonneg (by linarith)]
    linarith

lemma smoothIter_succ_def (t x : ℝ) (n : ℕ) :
    smoothIter t x (n + 1) = smoothStep (smoothIter t x n) t := rfl

lemma smoothIter_le_target (t x : ℝ) (h : x ≤ t) : ∀ n, smoothIter t x n ≤ t
  | 0 => h
  | n + 1 => (smoothStep_le_of_le _ t (smoothIter_le_target t x h n)).2

lemma smoothIter_ge_target (t x : ℝ) (h : t ≤ x) : ∀ n, t ≤ smoothIter t x n
  | 0 => h
  | n + 1 => (smoothStep_ge_of_ge _ t (smoothIter_ge_target t x h n)).1

lemma smoothIter_le_init (t x : ℝ) (h : t ≤ x) : ∀ n, smoothIter t x n ≤ x
  | 0 => le_refl x
  | n + 1 =>
    le_trans (smoothStep_ge_of_ge _ t (smoothIter_ge_target t x h n)).2
      (smoothIter_le_init t x h n)

lemma smoothIter_dist (t x : ℝ) (n : ℕ) :
    |smoothIter t x n - t| ≤ (17 / 20) ^ n * |x - t| := by
  induction n with
  | zero => simp [smoothIter]
  | succ n ih =>
    rw [smoothIter_succ_def]
    calc |smoothStep (smoothIter t x n) t - t|
        ≤ 17 / 20 * |smoothIter t x n - t| := smoothStep_dist _ _
      _ ≤ 17 / 20 * ((17 / 20) ^ n * |x - t|) :=
          mul_le_mul_of_nonneg_left ih (by norm_num)
      _ = (17 / 20) ^ (n + 1) * |x - t| := by ring

lemma smoothIter_tendsto (t x ε : ℝ) (hε : 0 < ε) :
    ∃ N, ∀ n, N ≤ n → |smoothIter t x n - t| < ε := by
  set D := |x - t| with hD
  have hD0 : 0 ≤ D := abs_nonneg _
  obtain ⟨N, hN⟩ :=
    exists_pow_lt_of_lt_one (div_pos hε (by linarith : (0:ℝ) < D + 1))
      (by norm_num : (17/20:ℝ) < 1)
  refine ⟨N, fun n hn => ?_⟩
  have h2 : ((17:ℝ)/20) ^ n ≤ (17/20) ^ N :=
    pow_le_pow_of_le_one (by norm_num) (by norm_num) hn
  have h5 : ε / (D + 1) * D < ε := by
    rw [div_mul_eq_mul_div, div_lt_iff₀ (by linarith : (0:ℝ) < D + 1)]
    nlinarith
  calc |smoothIter t x n - t| ≤ (17/20) ^ n * D := smoothIter_dist t x n
    _ ≤ (17/20) ^ N * D := mul_le_mul_of_nonneg_right h2 hD0
    _ ≤ ε / (D + 1) * D := mul_le_mul_of_nonneg_right (le_of_lt hN) hD0
    _ < ε := h5

/-- C7: with a constant target, the smoothed value moves monotonically
toward the target (rising and bounded by the target from below it, falling
and bounded by the target from above it) and converges to it; and starting
from any non-negative state with target 0, each step stays non-negative,
never exceeds the previous value, and never exceeds the starting value. -/
theorem c7_smoother_convergence (t x ε : ℝ) (hε : 0 < ε) :
    (∀ n, x ≤ t →
      smoothIter t x n ≤ smoothIter t x (n + 1) ∧ smoothIter t x (n + 1) ≤ t) ∧
    (∀ n, t ≤ x →
      smoothIter t x (n + 1) ≤ smoothIter t x n ∧ t ≤ smoothIter t x (n + 1)) ∧
    (∃ N, ∀ n, N ≤ n → |smoothIter t x n - t| < ε) ∧
    (0 ≤ x → ∀ n, 0 ≤ smoothIter 0 x (n + 1) ∧
      smoothIter 0 x (n + 1) ≤ smoothIter 0 x n ∧ smoothIter 0 x n ≤ x) := by
  refine ⟨?_, ?_, smoothIter_tendsto t x ε hε, ?_⟩
  · intro n h
    rw [smoothIter_succ_def]
    have hle := smoothIter_le_target t x h n
    exact ⟨(smoothStep_le_of_le _ t hle).1, (smoothStep_le_of_le _ t hle).2⟩
  · intro n h
    rw [smoothIter_succ_def]
    have hge := smoothIter_ge_target t x h n
    exact ⟨(smoothStep_ge_of_ge _ t hge).2, (smoothStep_ge_of_ge _ t hge).1⟩
  · intro hx n
    have hge := smoothIter_ge_target 0 x hx n
    refine ⟨?_, ?_, smoothIter_le_init 0 x hx n⟩
    · rw [smoothIter_succ_def]
      exact (smoothStep_ge_of_ge _ 0 hge).1
    · rw [smoothIter_succ_def]
      exact (smoothStep_ge_of_ge _ 0 hge).2

/-- Witness for C7 at target 1, initial state 0, tolerance 1. -/
theorem c7_smoother_convergence_witness :
    (0:ℝ) < 1 ∧
    ((∀ n, (0:ℝ) ≤ 1 →
        smoothIter 1 0 n ≤ smoothIter 1 0 (n + 1) ∧ smoothIter 1 0 (n + 1) ≤ 1) ∧
     (∀ n, (1:ℝ) ≤ 0 →
        smoothIter 1 0 (n + 1) ≤ smoothIter 1 0 n ∧ 1 ≤ smoothIter 1 0 (n + 1)) ∧
     (∃ N, ∀ n, N ≤ n → |smoothIter 1 0 n - 1| < 1) ∧
     ((0:ℝ) ≤ 0 → ∀ n, 0 ≤ smoothIter 0 0 (n + 1) ∧
        smoothIter 0 0 (n + 1) ≤ smoothIter 0 0 n ∧ smoothIter 0 0 n ≤ 0)) :=
  ⟨by norm_num, c7_smoother_convergence 1 0 1 (by norm_num)⟩

/-! ## Claim C8 — determinism of the per-frame pipeline -/

/-- C8: the pipeline is deterministic — two runs over equal frame
sequences at equal sample rates, both starting from the all-zero smoother
state, produce identical output bar sequences. -/
theorem c8_pipeline_deterministic (rate₁ rate₂ : ℝ) (frames₁ frames₂ : List (List ℝ))
    (hr : rate₁ = rate₂) (hf : frames₁ = frames₂) :
    pipelineOutputs rate₁ frames₁ = pipelineOutputs rate₂ frames₂ := by
  rw [hr, hf]

/-- Witness for C8 on one frame at sample rate 44100. -/
theorem c8_pipeline_deterministic_witness :
    (44100:ℝ) = 44100 ∧ [[(1:ℝ)]] = [[(1:ℝ)]] ∧
    pipelineOutputs 44100 [[(1:ℝ)]] = pipelineOutputs 44100 [[(1:ℝ)]] :=
  ⟨rfl, rfl, c8_pipeline_deterministic 44100 44100 [[1]] [[1]] rfl rfl⟩

/-! ## Claim C9 — shape and range of every emitted bar vector -/

lemma getD_mem_of_lt {α : Type} (l : List α) (n : ℕ) (d : α) (h : n < l.length) :
    l.getD n d ∈ l := by
  have he : l.getD n d = l.get ⟨n, h⟩ := by
    rw [List.getD_eq_getElem?_getD, List.getElem?_eq_getElem h]
    rfl
  rw [he]
  exact List.get_mem l n h

lemma exists_of_mem_zipWith {f : ℝ → ℝ → ℝ} :
    ∀ {l₁ l₂ : List ℝ} {x : ℝ}, x ∈ List.zipWith f l₁ l₂ →
      ∃ a b, a ∈ l₁ ∧ b ∈ l₂ ∧ x = f a b := by
  intro l₁
  induction l₁ with
  | nil => intro l₂ x hx; simp at hx
  | cons a as ih =>
    intro l₂ x hx
    cases l₂ with
    | nil => simp at hx
    | cons b bs =>
      rw [List.zipWith_cons_cons] at hx
      rcases List.mem_cons.mp hx with h | h
      · exact ⟨a, b, List.mem_cons_self _ _, List.mem_cons_self _ _, h⟩
      · obtain ⟨a', b', ha', hb', hx'⟩ := ih h
        exact ⟨a', b', List.mem_cons_of_mem _ ha', List.mem_cons_of_mem _ hb', hx'⟩

lemma barValue_bounds (mag : List ℝ) (res : ℝ) (i : ℕ) (fr : ℝ × ℝ) :
    0 ≤ barValue mag res i fr ∧ barValue mag res i fr ≤ 1.5 := by
  unfold barValue
  dsimp only
  split_ifs with hc
  · exact rawIntensity_bounds _ _
  · norm_num

lemma smoothStep_bounds (p t : ℝ) (hp0 : 0 ≤ p) (hp1 : p ≤ 1.5)
    (ht0 : 0 ≤ t) (ht1 : t ≤ 1.5) :
    0 ≤ smoothStep p t ∧ smoothStep p t ≤ 1.5 := by
  rcases le_total p t with h | h
  · have hs := smoothStep_le_of_le p t h
    exact ⟨le_trans hp0 hs.1, le_trans hs.2 ht1⟩
  · have hs := smoothStep_ge_of_ge p t h
    exact ⟨le_trans ht0 hs.1, le_trans hs.2 hp1⟩

lemma get_bar_frequencies_length (n : ℕ) : (get_bar_frequencies n).length = n := by
  unfold get_bar_frequencies
  simp

lemma processFrame_length (r : ℝ) (prev samples : List ℝ)
    (hp : prev.length = NUM_BARS) :
    (processFrame r prev samples).length = NUM_BARS := by
  unfold processFrame
  dsimp only
  rw [List.length_zipWith, List.length_map, List.enum_length,
    get_bar_frequencies_length, hp, min_self]

lemma processFrame_mem (r : ℝ) (prev samples : List ℝ)
    (hprev : ∀ x ∈ prev, 0 ≤ x ∧ x ≤ 1.5) :
    ∀ x ∈ processFrame r prev samples, 0 ≤ x ∧ x ≤ 1.5 := by
  intro x hx
  unfold processFrame at hx
  dsimp only at hx
  obtain ⟨a, b, ha, hb, rfl⟩ := exists_of_mem_zipWith hx
  obtain ⟨p, _, rfl⟩ := List.mem_map.mp hb
  have hpa := hprev a ha
  exact smoothStep_bounds a _ hpa.1 hpa.2
    (barValue_bounds _ _ _ _).1 (barValue_bounds _ _ _ _).2

lemma pipeline_states_good (r : ℝ) :
    ∀ (frames : List (List ℝ)) (prev : List ℝ),
      prev.length = NUM_BARS → (∀ x ∈ prev, 0 ≤ x ∧ x ≤ 1.5) →
      ∀ out ∈ frames.scanl (processFrame r) prev,
        out.length = NUM_BARS ∧ ∀ x ∈ out, 0 ≤ x ∧ x ≤ 1.5 := by
  intro frames
  induction frames with
  | nil =>
    intro prev h1 h2 out hout
    rw [show List.scanl (processFrame r) prev [] = [prev] from rfl] at hout
    rw [List.mem_singleton.mp hout]
    exact ⟨h1, h2⟩
  | cons f fs ih =>
    intro prev h1 h2 out hout
    rw [List.scanl_cons] at hout
    rcases List.mem_cons.mp hout with heq | hmem
    · rw [heq]; exact ⟨h1, h2⟩
    · exact ih (processFrame r prev f) (processFrame_length r prev f h1)
        (processFrame_mem r prev f h2) out hmem

/-- C9: every emitted bar vector has length exactly `NUM_BARS = 64`, and
every element lies in `[0, 1.5]` (in particular is non-negative): the raw
targets are in `[0, 1.5]`, each smoother step stays between its two
arguments, and the state starts all-zero, so the invariant is preserved by
every frame. -/
theorem c9_emitted_bars (r : ℝ) (frames : List (List ℝ)) (k : ℕ)
    (hk : k < frames.length) :
    (pipelineOutputs r frames).length = frames.length ∧
    ((pipelineOutputs r frames).getD k []).length = NUM_BARS ∧
    ∀ x ∈ (pipelineOutputs r frames).getD k [], 0 ≤ x ∧ x ≤ 1.5 := by
  have hlen : (pipelineOutputs r frames).length = frames.length := by
    unfold pipelineOutputs
    rw [List.length_drop, List.length_scanl]
    omega
  have hk' : k < (pipelineOutputs r frames).length := by rw [hlen]; exact hk
  have hmem : (pipelineOutputs r frames).getD k [] ∈
      frames.scanl (processFrame r) initialBars := by
    have h1 := getD_mem_of_lt (pipelineOutputs r frames) k [] hk'
    unfold pipelineOutputs at h1
    exact List.mem_of_mem_drop h1
  have hinit1 : initialBars.length = NUM_BARS := by simp [initialBars]
  have hinit2 : ∀ x ∈ initialBars, 0 ≤ x ∧ x ≤ 1.5 := by
    intro x hx
    rw [List.eq_of_mem_replicate hx]
    norm_num
  have hgood := pipeline_states_good r frames initialBars hinit1 hinit2 _ hmem
  exact ⟨hlen, hgood.1, hgood.2⟩

/-- Witness for C9 on one frame of silence at sample rate 48000. -/
theorem c9_emitted_bars_witness :
    0 < [List.replicate FFT_SIZE (0:ℝ)].length ∧
    ((pipelineOutputs 48000 [List.replicate FFT_SIZE (0:ℝ)]).length =
        [List.replicate FFT_SIZE (0:ℝ)].length ∧
      ((pipelineOutputs 48000 [List.replicate FFT_SIZE (0:ℝ)]).getD 0 []).length = NUM_BARS ∧
      ∀ x ∈ (pipelineOutputs 48000 [List.replicate FFT_SIZE (0:ℝ)]).getD 0 [],
        0 ≤ x ∧ x ≤ 1.5) :=
  ⟨by decide, c9_emitted_bars 48000 [List.replicate FFT_SIZE 0] 0 (by decide)⟩

/-! ## Claim C10 — locks held across the emission call -/

/-- C10 (code bug): in the trace of one `process_fn` call on a 2048-sample
chunk with an empty residual buffer, the `window.emit` event (position 3)
happens while the sample-buffer mutex, the processor mutex and the planner
mutex are all held, contradicting the requirement that the lock not be
held across the external emission call. -/
theorem c10_emit_under_lock :
    (chunkTrace 0 FFT_SIZE).getD 3 LockEvent.unlockBuf = LockEvent.emitBars ∧
    heldAt LockEvent.lockBuf LockEvent.unlockBuf (chunkTrace 0 FFT_SIZE) 3 ∧
    heldAt LockEvent.lockProc LockEvent.unlockProc (chunkTrace 0 FFT_SIZE) 3 ∧
    heldAt LockEvent.lockPlan LockEvent.unlockPlan (chunkTrace 0 FFT_SIZE) 3 := by
  decide

end AUDX
